import Mathlib

/-!
Verification of the process/memory core of an xv6-riscv port
(hybrid C / Rust kernel).  The kernel interfaces are declared in
`kernel/defs.h`; the sleeplock record is `kernel/sleeplock.h`.  The
virtual-memory manager, physical page allocator, process manager,
copy routines and syscall argument fetchers are modelled here as a
shallow embedding, at page granularity, following the design
specification of the kernel.
-/

set_option autoImplicit false

namespace XV6

/-- Page size in bytes, as in the RISC-V Sv39 configuration the kernel targets. -/
def PGSIZE : Nat := 4096

/-- Round a size up to a page boundary. -/
def PGROUNDUP (sz : Nat) : Nat := ((sz + PGSIZE - 1) / PGSIZE) * PGSIZE

/-- Round an address down to a page boundary. -/
def PGROUNDDOWN (a : Nat) : Nat := (a / PGSIZE) * PGSIZE

/-- A leaf page-table entry: physical page number plus permission bits. -/
structure PTE where
  ppn : Nat
  perm : Nat
deriving DecidableEq, Repr

/-- A page table, abstracted to the partial map it denotes: an association
list from virtual page number to the installed leaf entry.  The three-level
radix walk of the hardware table resolves a virtual page number to at most
one leaf entry, which this list records. -/
abbrev Pagetable := List (Nat × PTE)

/-- Look up the leaf entry for a virtual page number: the walkaddr-style
lookup (first matching entry, `none` when no mapping is installed). -/
def walkLookup : Pagetable → Nat → Option PTE
  | [], _ => none
  | (v, e) :: rest, vpn => if v = vpn then some e else walkLookup rest vpn

/-- Modelled from the spec: the loop of `map_pages` (vm.c is not part of the
provided sources).  Installs `n` consecutive leaf mappings starting at
virtual page `vpn` backed by consecutive physical pages starting at `ppn`,
failing (no silent overwrite) if any page in the range is already mapped. -/
def mapPagesGo : Pagetable → Nat → Nat → Nat → Nat → Option Pagetable
  | pt, _, _, _, 0 => some pt
  | pt, vpn, ppn, perm, Nat.succ k =>
    match walkLookup pt vpn with
    | some _ => none
    | none => mapPagesGo ((vpn, ⟨ppn, perm⟩) :: pt) (vpn + 1) (ppn + 1) perm k

/-- Modelled from the spec: `mappages` (vm.c is not part of the provided
sources).  Installs leaf mappings with permission set `perm` for the pages
covering `[va, va + sz)`, backed by physical memory starting at `pa`;
fails if a mapping already exists at any covered address. -/
def mappages (pt : Pagetable) (va sz pa perm : Nat) : Option Pagetable :=
  if sz = 0 then none
  else mapPagesGo pt (va / PGSIZE) (pa / PGSIZE) perm
    ((PGROUNDDOWN (va + sz - 1) - PGROUNDDOWN va) / PGSIZE + 1)

/-- Modelled from the spec: `walkaddr` (vm.c is not part of the provided
sources).  Translates a virtual address to the physical address it maps to,
failing when no mapping is installed. -/
def walkaddr (pt : Pagetable) (va : Nat) : Option Nat :=
  match walkLookup pt (va / PGSIZE) with
  | none => none
  | some e => some (e.ppn * PGSIZE + va % PGSIZE)

/-- Physical page allocator state: the freelist of free physical page
numbers, head first. -/
structure Kmem where
  freelist : List Nat
deriving DecidableEq, Repr

/-- Modelled from the spec: `kalloc` (kalloc.c is not part of the provided
sources).  Pops the head of the freelist; fails, returning the failure
indicator `none`, when the freelist is empty — it never blocks and never
panics (it is a total function on every allocator state). -/
def kalloc (k : Kmem) : Option Nat × Kmem :=
  match k.freelist with
  | [] => (none, k)
  | p :: rest => (some p, ⟨rest⟩)

/-- Modelled from the spec: `kfree` (kalloc.c is not part of the provided
sources).  Pushes a page back onto the head of the freelist. -/
def kfree (p : Nat) (k : Kmem) : Kmem := ⟨p :: k.freelist⟩

/-- Delete the entry for a virtual page number from a page table:
the map-level effect of clearing the leaf PTE. -/
def removeKey : Pagetable → Nat → Pagetable
  | [], _ => []
  | (v, e) :: rest, vpn =>
    if v = vpn then removeKey rest vpn else (v, e) :: removeKey rest vpn

/-- Combined memory-manager state: the physical allocator and one process
page table, the two components `uvmalloc`/`uvmdealloc` mutate together. -/
structure Mem where
  kmem : Kmem
  pt : Pagetable
deriving DecidableEq, Repr

/-- Modelled from the spec: the loop of `uvmunmap` with `do_free` set
(vm.c is not part of the provided sources), as invoked by `uvmdealloc`:
walks `npages` pages from `vpn` upward, clearing each installed leaf entry
and returning its physical page to the freelist. -/
def uvmunmapGo : Mem → Nat → Nat → Mem
  | m, _, 0 => m
  | m, vpn, Nat.succ k =>
    match walkLookup m.pt vpn with
    | none => uvmunmapGo ⟨m.kmem, removeKey m.pt vpn⟩ (vpn + 1) k
    | some e => uvmunmapGo ⟨kfree e.ppn m.kmem, removeKey m.pt vpn⟩ (vpn + 1) k

/-- Modelled from the spec: `uvmdealloc` (vm.c is not part of the provided
sources).  Shrinks the mapped range from `oldsz` down to `newsz`, unmapping
and freeing exactly the pages beyond the new size; no-op when `newsz` is
not smaller. -/
def uvmdealloc (m : Mem) (oldsz newsz : Nat) : Nat × Mem :=
  if oldsz ≤ newsz then (oldsz, m)
  else (newsz, uvmunmapGo m (PGROUNDUP newsz / PGSIZE)
    (PGROUNDUP oldsz / PGSIZE - PGROUNDUP newsz / PGSIZE))

/-- Modelled from the spec: the growth loop of `uvmalloc` (vm.c is not part
of the provided sources).  `added` pages starting at page `start` have been
added by this call so far; `k` pages remain.  Each step allocates a physical
page with `kalloc` and installs it with `mappages`; on either failure it
rolls back, freeing every page added during this call, and reports failure. -/
def uvmallocGo (start perm : Nat) : Mem → Nat → Nat → Bool × Mem
  | m, _, 0 => (true, m)
  | m, added, Nat.succ k =>
    match kalloc m.kmem with
    | (none, _) => (false, uvmunmapGo m start added)
    | (some p, km) =>
      match mappages m.pt ((start + added) * PGSIZE) PGSIZE (p * PGSIZE) perm with
      | none => (false, uvmunmapGo ⟨kfree p km, m.pt⟩ start added)
      | some pt2 => uvmallocGo start perm ⟨km, pt2⟩ (added + 1) k

/-- Modelled from the spec: `uvmalloc` (vm.c is not part of the provided
sources).  Extends the mapped heap range from `oldsz` up to `newsz`,
allocating one physical page per added virtual page; returns the new size
on success and the failure indicator `none` (with the rolled-back state)
on failure. -/
def uvmalloc (m : Mem) (oldsz newsz perm : Nat) : Option Nat × Mem :=
  if newsz < oldsz then (some oldsz, m)
  else
    match uvmallocGo (PGROUNDUP oldsz / PGSIZE) perm m 0
        (PGROUNDUP newsz / PGSIZE - PGROUNDUP oldsz / PGSIZE) with
    | (true, m2) => (some newsz, m2)
    | (false, m2) => (none, m2)

/-- The page-table fragment added by a growth loop that popped the physical
pages `ps` (in order) for consecutive virtual pages starting at `start`:
the entry for `start` sits deepest, each later page is consed in front. -/
def buildAdded (perm : Nat) : Nat → List Nat → Pagetable
  | _, [] => []
  | start, p :: ps => buildAdded perm (start + 1) ps ++ [(start, ⟨p, perm⟩)]

/- ### Lookup / mapping lemmas -/

theorem walkLookup_append (l1 l2 : Pagetable) (w : Nat) :
    walkLookup (l1 ++ l2) w =
      (match walkLookup l1 w with
       | some e => some e
       | none => walkLookup l2 w) := by
  induction l1 with
  | nil => simp [walkLookup]
  | cons hd tl ih =>
    obtain ⟨v, e⟩ := hd
    by_cases hv : v = w
    · simp [walkLookup, hv]
    · simp [walkLookup, hv, ih]

theorem mapPagesGo_preserves (k : Nat) :
    ∀ pt vpn ppn perm pt' w, mapPagesGo pt vpn ppn perm k = some pt' →
      (w < vpn ∨ vpn + k ≤ w) → walkLookup pt' w = walkLookup pt w := by
  induction k with
  | zero =>
    intro pt vpn ppn perm pt' w h _
    simp [mapPagesGo] at h
    rw [h]
  | succ k ih =>
    intro pt vpn ppn perm pt' w h hw
    rw [mapPagesGo] at h
    cases hwl : walkLookup pt vpn with
    | some e => rw [hwl] at h; exact absurd h (by simp)
    | none =>
      rw [hwl] at h
      have hne : vpn ≠ w := by omega
      have hw2 : w < vpn + 1 ∨ (vpn + 1) + k ≤ w := by omega
      have := ih _ _ _ _ _ w h hw2
      rw [this]
      simp [walkLookup, hne]

theorem mapPagesGo_lookup (k : Nat) :
    ∀ pt vpn ppn perm pt', mapPagesGo pt vpn ppn perm k = some pt' →
      ∀ i, i < k → walkLookup pt' (vpn + i) = some ⟨ppn + i, perm⟩ := by
  induction k with
  | zero => intro pt vpn ppn perm pt' _ i hi; omega
  | succ k ih =>
    intro pt vpn ppn perm pt' h i hi
    rw [mapPagesGo] at h
    cases hwl : walkLookup pt vpn with
    | some e => rw [hwl] at h; exact absurd h (by simp)
    | none =>
      rw [hwl] at h
      cases i with
      | zero =>
        have hpres := mapPagesGo_preserves k _ _ _ _ _ vpn h (by omega)
        rw [Nat.add_zero, Nat.add_zero, hpres]
        simp [walkLookup]
      | succ j =>
        have := ih _ _ _ _ _ h j (by omega)
        have hv : vpn + (j + 1) = (vpn + 1) + j := by omega
        have hp : ppn + (j + 1) = (ppn + 1) + j := by omega
        rw [hv, hp]
        exact this

theorem mapPagesGo_existing_fails (k : Nat) :
    ∀ pt vpn ppn perm w e, walkLookup pt w = some e →
      vpn ≤ w → w < vpn + k → mapPagesGo pt vpn ppn perm k = none := by
  induction k with
  | zero => intro pt vpn ppn perm w e _ _ _; omega
  | succ k ih =>
    intro pt vpn ppn perm w e hw hle hlt
    rw [mapPagesGo]
    cases hwl : walkLookup pt vpn with
    | some e2 => rfl
    | none =>
      have hne : vpn ≠ w := by
        intro hcontra
        rw [hcontra] at hwl
        rw [hwl] at hw
        exact absurd hw (by simp)
      have hw2 : walkLookup ((vpn, ⟨ppn, perm⟩) :: pt) w = some e := by
        simp [walkLookup, hne, hw]
      exact ih _ _ _ _ w e hw2 (by omega) (by omega)

/- ### Equation and computation lemmas -/

theorem uvmunmapGo_succ (m : Mem) (vpn k : Nat) :
    uvmunmapGo m vpn (k + 1) =
      (match walkLookup m.pt vpn with
       | none => uvmunmapGo ⟨m.kmem, removeKey m.pt vpn⟩ (vpn + 1) k
       | some e => uvmunmapGo ⟨kfree e.ppn m.kmem, removeKey m.pt vpn⟩ (vpn + 1) k) :=
  rfl

theorem uvmallocGo_succ (start perm : Nat) (m : Mem) (added k : Nat) :
    uvmallocGo start perm m added (k + 1) =
      (match kalloc m.kmem with
       | (none, _) => (false, uvmunmapGo m start added)
       | (some p, km) =>
         match mappages m.pt ((start + added) * PGSIZE) PGSIZE (p * PGSIZE) perm with
         | none => (false, uvmunmapGo ⟨kfree p km, m.pt⟩ start added)
         | some pt2 => uvmallocGo start perm ⟨km, pt2⟩ (added + 1) k) :=
  rfl

/-- One-page `mappages` call, as issued by the `uvmalloc` growth loop,
computed down to the walk of the single covered page. -/
theorem mappages_one (pt : Pagetable) (vpn p perm : Nat) :
    mappages pt (vpn * PGSIZE) PGSIZE (p * PGSIZE) perm =
      (match walkLookup pt vpn with
       | some _ => none
       | none => some ((vpn, ⟨p, perm⟩) :: pt)) := by
  have hva : vpn * PGSIZE / PGSIZE = vpn := by
    simp only [PGSIZE]
    omega
  have hpa : p * PGSIZE / PGSIZE = p := by
    simp only [PGSIZE]
    omega
  have hnp : (PGROUNDDOWN (vpn * PGSIZE + PGSIZE - 1) - PGROUNDDOWN (vpn * PGSIZE))
      / PGSIZE + 1 = 1 := by
    simp only [PGROUNDDOWN, PGSIZE]
    omega
  rw [mappages, if_neg (by decide : ¬ (PGSIZE = 0)), hva, hpa, hnp]
  cases hwl : walkLookup pt vpn with
  | some e => simp [mapPagesGo, hwl]
  | none => simp [mapPagesGo, hwl]

/- ### buildAdded and removeKey lemmas -/

theorem buildAdded_snoc (perm : Nat) :
    ∀ ps start q, buildAdded perm start (ps ++ [q]) =
      (start + ps.length, ⟨q, perm⟩) :: buildAdded perm start ps := by
  intro ps
  induction ps with
  | nil => intro start q; simp [buildAdded]
  | cons p ps ih =>
    intro start q
    have h1 : (p :: ps) ++ [q] = p :: (ps ++ [q]) := rfl
    rw [h1, buildAdded, ih, buildAdded]
    simp [List.cons_append]
    omega

theorem walkLookup_buildAdded_none (perm : Nat) :
    ∀ ps start w, (w < start ∨ start + ps.length ≤ w) →
      walkLookup (buildAdded perm start ps) w = none := by
  intro ps
  induction ps with
  | nil => intro start w _; rfl
  | cons p ps ih =>
    intro start w hw
    rw [buildAdded, walkLookup_append]
    have h1 : walkLookup (buildAdded perm (start + 1) ps) w = none := by
      apply ih
      simp only [List.length_cons] at hw
      omega
    rw [h1]
    have h2 : start ≠ w := by
      simp only [List.length_cons] at hw
      omega
    simp [walkLookup, h2]

theorem walkLookup_buildAdded_head (perm : Nat) (ps : List Nat)
    (start p : Nat) (pt0 : Pagetable) :
    walkLookup (buildAdded perm start (p :: ps) ++ pt0) start = some ⟨p, perm⟩ := by
  rw [buildAdded, List.append_assoc, walkLookup_append]
  rw [walkLookup_buildAdded_none perm ps (start + 1) start (by omega)]
  simp [walkLookup]

theorem removeKey_append (l1 l2 : Pagetable) (v : Nat) :
    removeKey (l1 ++ l2) v = removeKey l1 v ++ removeKey l2 v := by
  induction l1 with
  | nil => rfl
  | cons hd tl ih =>
    obtain ⟨a, e⟩ := hd
    by_cases ha : a = v
    · simp [removeKey, ha, ih]
    · simp [removeKey, ha, ih]

theorem removeKey_of_none (l : Pagetable) (v : Nat)
    (h : walkLookup l v = none) : removeKey l v = l := by
  induction l with
  | nil => rfl
  | cons hd tl ih =>
    obtain ⟨a, e⟩ := hd
    by_cases ha : a = v
    · rw [walkLookup, if_pos ha] at h
      exact absurd h (by simp)
    · rw [walkLookup, if_neg ha] at h
      rw [removeKey, if_neg ha, ih h]

theorem removeKey_buildAdded_cons (perm : Nat) (ps : List Nat)
    (start p : Nat) (pt0 : Pagetable) (h0 : walkLookup pt0 start = none) :
    removeKey (buildAdded perm start (p :: ps) ++ pt0) start =
      buildAdded perm (start + 1) ps ++ pt0 := by
  rw [buildAdded, List.append_assoc, removeKey_append]
  rw [removeKey_of_none _ _ (walkLookup_buildAdded_none perm ps (start + 1) start (by omega))]
  have h2 : removeKey ([(start, (⟨p, perm⟩ : PTE))] ++ pt0) start = pt0 := by
    rw [List.singleton_append, removeKey, if_pos rfl, removeKey_of_none _ _ h0]
  rw [h2]

/- ### Rollback and growth lemmas -/

theorem uvmunmapGo_rollback (perm : Nat) :
    ∀ ps start fl pt0,
      (∀ i, i < ps.length → walkLookup pt0 (start + i) = none) →
      uvmunmapGo ⟨⟨fl⟩, buildAdded perm start ps ++ pt0⟩ start ps.length =
        ⟨⟨ps.reverse ++ fl⟩, pt0⟩ := by
  intro ps
  induction ps with
  | nil =>
    intro start fl pt0 _
    simp [buildAdded, uvmunmapGo]
  | cons p ps ih =>
    intro start fl pt0 h
    have h0 : walkLookup pt0 start = none := by
      have := h 0 (by simp)
      rwa [Nat.add_zero] at this
    have hrec := ih (start + 1) (p :: fl) pt0 (by
      intro i hi
      have h2 := h (i + 1) (by simp; omega)
      rw [show start + (i + 1) = start + 1 + i from by omega] at h2
      exact h2)
    have hstep : uvmunmapGo (⟨⟨fl⟩, buildAdded perm start (p :: ps) ++ pt0⟩ : Mem)
        start (ps.length + 1) =
        uvmunmapGo ⟨⟨p :: fl⟩, buildAdded perm (start + 1) ps ++ pt0⟩
          (start + 1) ps.length := by
      rw [uvmunmapGo_succ]
      rw [show (⟨⟨fl⟩, buildAdded perm start (p :: ps) ++ pt0⟩ : Mem).pt =
        buildAdded perm start (p :: ps) ++ pt0 from rfl]
      rw [walkLookup_buildAdded_head, removeKey_buildAdded_cons perm ps start p pt0 h0]
      rfl
    rw [List.length_cons, hstep, hrec]
    simp

theorem uvmallocGo_false (start perm : Nat) (pt0 : Pagetable) :
    ∀ k ps fl m',
      (∀ i, i < ps.length → walkLookup pt0 (start + i) = none) →
      uvmallocGo start perm ⟨⟨fl⟩, buildAdded perm start ps ++ pt0⟩ ps.length k =
        (false, m') →
      ∃ qs fl2, fl = qs ++ fl2 ∧ m'.pt = pt0 ∧
        m'.kmem.freelist = (ps ++ qs).reverse ++ fl2 := by
  intro k
  induction k with
  | zero =>
    intro ps fl m' _ hgo
    have hb : (true : Bool) = false := congrArg Prod.fst hgo
    exact absurd hb (by decide)
  | succ k ih =>
    intro ps fl m' h hgo
    cases fl with
    | nil =>
      have hstep : uvmallocGo start perm
          (⟨⟨[]⟩, buildAdded perm start ps ++ pt0⟩ : Mem) ps.length (k + 1) =
          (false, uvmunmapGo ⟨⟨[]⟩, buildAdded perm start ps ++ pt0⟩ start ps.length) :=
        rfl
      rw [hstep, uvmunmapGo_rollback perm ps start [] pt0 h] at hgo
      have hm : m' = ⟨⟨ps.reverse ++ []⟩, pt0⟩ := by
        have h2 := hgo
        simp only [Prod.mk.injEq] at h2
        exact h2.2.symm
      refine ⟨[], [], by simp, by rw [hm], by rw [hm]; simp⟩
    | cons p rest =>
      have hstep : uvmallocGo start perm
          (⟨⟨p :: rest⟩, buildAdded perm start ps ++ pt0⟩ : Mem) ps.length (k + 1) =
          (match mappages (buildAdded perm start ps ++ pt0)
              ((start + ps.length) * PGSIZE) PGSIZE (p * PGSIZE) perm with
           | none => (false, uvmunmapGo ⟨⟨p :: rest⟩, buildAdded perm start ps ++ pt0⟩
               start ps.length)
           | some pt2 => uvmallocGo start perm ⟨⟨rest⟩, pt2⟩ (ps.length + 1) k) := rfl
      rw [hstep, mappages_one] at hgo
      have hwl : walkLookup (buildAdded perm start ps ++ pt0) (start + ps.length) =
          walkLookup pt0 (start + ps.length) := by
        rw [walkLookup_append,
          walkLookup_buildAdded_none perm ps start (start + ps.length) (by omega)]
      rw [hwl] at hgo
      cases hpt0 : walkLookup pt0 (start + ps.length) with
      | some e =>
        rw [hpt0] at hgo
        have hgo2 : ((false, uvmunmapGo
            (⟨⟨p :: rest⟩, buildAdded perm start ps ++ pt0⟩ : Mem) start ps.length) :
            Bool × Mem) = (false, m') := hgo
        rw [uvmunmapGo_rollback perm ps start (p :: rest) pt0 h] at hgo2
        have hm : m' = ⟨⟨ps.reverse ++ (p :: rest)⟩, pt0⟩ := by
          simp only [Prod.mk.injEq] at hgo2
          exact hgo2.2.symm
        refine ⟨[], p :: rest, by simp, by rw [hm], by rw [hm]; simp⟩
      | none =>
        rw [hpt0] at hgo
        have hgo2 : uvmallocGo start perm
            ⟨⟨rest⟩, (start + ps.length, (⟨p, perm⟩ : PTE)) ::
              (buildAdded perm start ps ++ pt0)⟩ (ps.length + 1) k = (false, m') := hgo
        have hshape : (start + ps.length, (⟨p, perm⟩ : PTE)) ::
            (buildAdded perm start ps ++ pt0) =
            buildAdded perm start (ps ++ [p]) ++ pt0 := by
          rw [buildAdded_snoc]
          rfl
        rw [hshape] at hgo2
        have hlen : ps.length + 1 = (ps ++ [p]).length := by simp
        rw [hlen] at hgo2
        have hfresh : ∀ i, i < (ps ++ [p]).length → walkLookup pt0 (start + i) = none := by
          intro i hi
          simp only [List.length_append, List.length_cons, List.length_nil] at hi
          rcases Nat.lt_or_ge i ps.length with hc | hc
          · exact h i hc
          · have hieq : i = ps.length := by omega
            rw [hieq]
            exact hpt0
        obtain ⟨qs2, fl2, hfl, hpt, hfree⟩ := ih (ps ++ [p]) rest m' hfresh hgo2
        refine ⟨p :: qs2, fl2, ?_, hpt, ?_⟩
        · rw [hfl]
          simp
        · rw [hfree]
          simp

theorem uvmallocGo_true (start perm : Nat) (pt0 : Pagetable) :
    ∀ k ps fl m',
      (∀ i, i < ps.length → walkLookup pt0 (start + i) = none) →
      uvmallocGo start perm ⟨⟨fl⟩, buildAdded perm start ps ++ pt0⟩ ps.length k =
        (true, m') →
      ∃ qs fl2, qs.length = k ∧ fl = qs ++ fl2 ∧
        m' = ⟨⟨fl2⟩, buildAdded perm start (ps ++ qs) ++ pt0⟩ ∧
        (∀ i, i < ps.length + k → walkLookup pt0 (start + i) = none) := by
  intro k
  induction k with
  | zero =>
    intro ps fl m' h hgo
    have hm : ((true, (⟨⟨fl⟩, buildAdded perm start ps ++ pt0⟩ : Mem)) : Bool × Mem) =
        (true, m') := hgo
    have hm2 : m' = ⟨⟨fl⟩, buildAdded perm start ps ++ pt0⟩ := by
      simp only [Prod.mk.injEq] at hm
      exact hm.2.symm
    refine ⟨[], fl, rfl, by simp, by rw [hm2]; simp, ?_⟩
    intro i hi
    exact h i (by omega)
  | succ k ih =>
    intro ps fl m' h hgo
    cases fl with
    | nil =>
      have hgo2 : ((false, uvmunmapGo
          (⟨⟨[]⟩, buildAdded perm start ps ++ pt0⟩ : Mem) start ps.length) :
          Bool × Mem) = (true, m') := hgo
      have hb : (false : Bool) = true := congrArg Prod.fst hgo2
      exact absurd hb (by decide)
    | cons p rest =>
      have hstep : uvmallocGo start perm
          (⟨⟨p :: rest⟩, buildAdded perm start ps ++ pt0⟩ : Mem) ps.length (k + 1) =
          (match mappages (buildAdded perm start ps ++ pt0)
              ((start + ps.length) * PGSIZE) PGSIZE (p * PGSIZE) perm with
           | none => (false, uvmunmapGo ⟨⟨p :: rest⟩, buildAdded perm start ps ++ pt0⟩
               start ps.length)
           | some pt2 => uvmallocGo start perm ⟨⟨rest⟩, pt2⟩ (ps.length + 1) k) := rfl
      rw [hstep, mappages_one] at hgo
      have hwl : walkLookup (buildAdded perm start ps ++ pt0) (start + ps.length) =
          walkLookup pt0 (start + ps.length) := by
        rw [walkLookup_append,
          walkLookup_buildAdded_none perm ps start (start + ps.length) (by omega)]
      rw [hwl] at hgo
      cases hpt0 : walkLookup pt0 (start + ps.length) with
      | some e =>
        rw [hpt0] at hgo
        have hgo2 : ((false, uvmunmapGo
            (⟨⟨p :: rest⟩, buildAdded perm start ps ++ pt0⟩ : Mem) start ps.length) :
            Bool × Mem) = (true, m') := hgo
        have hb : (false : Bool) = true := congrArg Prod.fst hgo2
        exact absurd hb (by decide)
      | none =>
        rw [hpt0] at hgo
        have hgo2 : uvmallocGo start perm
            ⟨⟨rest⟩, (start + ps.length, (⟨p, perm⟩ : PTE)) ::
              (buildAdded perm start ps ++ pt0)⟩ (ps.length + 1) k = (true, m') := hgo
        have hshape : (start + ps.length, (⟨p, perm⟩ : PTE)) ::
            (buildAdded perm start ps ++ pt0) =
            buildAdded perm start (ps ++ [p]) ++ pt0 := by
          rw [buildAdded_snoc]
          rfl
        rw [hshape] at hgo2
        have hlen : ps.length + 1 = (ps ++ [p]).length := by simp
        rw [hlen] at hgo2
        have hfresh : ∀ i, i < (ps ++ [p]).length → walkLookup pt0 (start + i) = none := by
          intro i hi
          simp only [List.length_append, List.length_cons, List.length_nil] at hi
          rcases Nat.lt_or_ge i ps.length with hc | hc
          · exact h i hc
          · have hieq : i = ps.length := by omega
            rw [hieq]
            exact hpt0
        obtain ⟨qs2, fl2, hq, hfl, hm, hfr⟩ := ih (ps ++ [p]) rest m' hfresh hgo2
        refine ⟨p :: qs2, fl2, by simp [hq], ?_, ?_, ?_⟩
        · rw [hfl]
          simp
        · rw [hm]
          have hl : (ps ++ [p]) ++ qs2 = ps ++ (p :: qs2) := by simp
          rw [hl]
        · intro i hi
          apply hfr
          simp only [List.length_append, List.length_cons, List.length_nil]
          omega

/- ### Claims C2, C3, C4 -/

/-- Claim C2: for every page table, virtual page address, physical frame
address, and permission set, after `mappages` succeeds in installing the
mapping, a walkaddr-style lookup of that virtual address returns exactly
that physical frame address with exactly the same permission bits. -/
theorem mappages_roundtrip (pt pt' : Pagetable) (va sz pa perm : Nat)
    (h : mappages pt va sz pa perm = some pt') :
    walkLookup pt' (va / PGSIZE) = some ⟨pa / PGSIZE, perm⟩ ∧
    walkaddr pt' va = some ((pa / PGSIZE) * PGSIZE + va % PGSIZE) := by
  rw [mappages] at h
  by_cases hsz : sz = 0
  · rw [if_pos hsz] at h
    exact absurd h (by simp)
  · rw [if_neg hsz] at h
    have h0 := mapPagesGo_lookup _ _ _ _ _ _ h 0 (Nat.succ_pos _)
    rw [Nat.add_zero, Nat.add_zero] at h0
    refine ⟨h0, ?_⟩
    rw [walkaddr, h0]

/-- Witness for C2: mapping virtual page `0x1000` to physical frame 7 with
permission bits 6 (read+write) and looking it up returns frame 7 with
permission bits 6. -/
theorem mappages_roundtrip_witness :
    walkLookup [(1, ⟨7, 6⟩)] (4096 / PGSIZE) = some ⟨28672 / PGSIZE, 6⟩ ∧
    walkaddr [(1, (⟨7, 6⟩ : PTE))] 4096 =
      some ((28672 / PGSIZE) * PGSIZE + 4096 % PGSIZE) :=
  mappages_roundtrip [] [(1, ⟨7, 6⟩)] 4096 4096 28672 6 (by decide)

/-- Claim C3: for every page table and every virtual address at which a leaf
mapping is already present, `mappages` called to install a mapping at that
address fails rather than silently overwriting the existing entry. -/
theorem mappages_no_overwrite (pt : Pagetable) (va sz pa perm : Nat) (e : PTE)
    (h : walkLookup pt (va / PGSIZE) = some e) :
    mappages pt va sz pa perm = none := by
  rw [mappages]
  by_cases hsz : sz = 0
  · rw [if_pos hsz]
  · rw [if_neg hsz]
    exact mapPagesGo_existing_fails _ _ _ _ _ _ _ h (Nat.le_refl _)
      (Nat.lt_add_of_pos_right (Nat.succ_pos _))

/-- Witness for C3: with virtual page 1 already mapped to frame 7,
remapping address `0x1000` fails. -/
theorem mappages_no_overwrite_witness :
    mappages [(1, ⟨7, 6⟩)] 4096 4096 12288 6 = none :=
  mappages_no_overwrite [(1, ⟨7, 6⟩)] 4096 4096 12288 6 ⟨7, 6⟩ (by decide)

/-- Claim C4: whenever the physical page freelist is empty, `kalloc` returns
the failure indicator; it never blocks and never panics (it is a total
function of the allocator state, which it leaves unchanged on failure). -/
theorem kalloc_empty_fails (k : Kmem) (h : k.freelist = []) :
    (kalloc k).1 = none ∧ (kalloc k).2 = k := by
  obtain ⟨fl⟩ := k
  cases fl with
  | nil => exact ⟨rfl, rfl⟩
  | cons p rest => exact absurd h (by simp)

/-- Witness for C4: `kalloc` on the empty freelist returns `none`. -/
theorem kalloc_empty_fails_witness :
    (kalloc ⟨[]⟩).1 = none ∧ (kalloc ⟨[]⟩).2 = ⟨[]⟩ :=
  kalloc_empty_fails ⟨[]⟩ rfl

/- ### Claims C1 and C5 -/

/-- Claim C1: if `uvmalloc` fails because some physical page allocation
fails mid-growth, it frees every page it added during this call and returns
the failure indicator, leaving the address space's set of mappings exactly
as it was before the call (here: the page table is restored verbatim and
the freelist holds exactly the same pages again). -/
theorem uvmalloc_fail_rollback (m m' : Mem) (oldsz newsz perm : Nat)
    (h : uvmalloc m oldsz newsz perm = (none, m')) :
    m'.pt = m.pt ∧ List.Perm m'.kmem.freelist m.kmem.freelist := by
  obtain ⟨⟨fl⟩, pt0⟩ := m
  rw [uvmalloc] at h
  by_cases hlt : newsz < oldsz
  · rw [if_pos hlt] at h
    simp only [Prod.mk.injEq] at h
    exact absurd h.1 (by simp)
  · rw [if_neg hlt] at h
    cases hgo : uvmallocGo (PGROUNDUP oldsz / PGSIZE) perm ⟨⟨fl⟩, pt0⟩ 0
        (PGROUNDUP newsz / PGSIZE - PGROUNDUP oldsz / PGSIZE) with
    | mk b m2 =>
      rw [hgo] at h
      cases b with
      | true =>
        simp only [Prod.mk.injEq] at h
        exact absurd h.1 (by simp)
      | false =>
        simp only [Prod.mk.injEq] at h
        have hm : m' = m2 := h.2.symm
        obtain ⟨qs, fl2, hfl, hpt, hfree⟩ :=
          uvmallocGo_false (PGROUNDUP oldsz / PGSIZE) perm pt0 _ [] fl m2
            (by intro i hi; simp at hi) hgo
        subst hm
        constructor
        · rw [hpt]
        · rw [hfree, hfl]
          simp only [List.nil_append]
          exact (List.reverse_perm qs).append_right fl2

/-- Witness for C1: growing from 0 to two pages with only one free page
fails and rolls back, leaving the empty page table and the one-page
freelist exactly as they were. -/
theorem uvmalloc_fail_rollback_witness :
    ((⟨⟨[7]⟩, []⟩ : Mem)).pt = ((⟨⟨[7]⟩, []⟩ : Mem)).pt ∧
    List.Perm ((⟨⟨[7]⟩, []⟩ : Mem)).kmem.freelist ((⟨⟨[7]⟩, []⟩ : Mem)).kmem.freelist :=
  uvmalloc_fail_rollback ⟨⟨[7]⟩, []⟩ ⟨⟨[7]⟩, []⟩ 0 8192 0 (by decide)

/-- Claim C5: performing `uvmalloc` from `oldsz` up to `newsz` and then
`uvmdealloc` back down to `oldsz` restores exactly the original mapped
extent (the page table is restored verbatim), and the pages freed by the
`uvmdealloc` are exactly the pages that the `uvmalloc` added (the freelist
holds exactly the original pages again). -/
theorem uvmalloc_uvmdealloc_roundtrip (m m' : Mem) (oldsz newsz perm r : Nat)
    (hle : oldsz ≤ newsz)
    (h : uvmalloc m oldsz newsz perm = (some r, m')) :
    (uvmdealloc m' newsz oldsz).2.pt = m.pt ∧
    List.Perm (uvmdealloc m' newsz oldsz).2.kmem.freelist m.kmem.freelist := by
  obtain ⟨⟨fl⟩, pt0⟩ := m
  rw [uvmalloc, if_neg (by omega : ¬ newsz < oldsz)] at h
  cases hgo : uvmallocGo (PGROUNDUP oldsz / PGSIZE) perm ⟨⟨fl⟩, pt0⟩ 0
      (PGROUNDUP newsz / PGSIZE - PGROUNDUP oldsz / PGSIZE) with
  | mk b m2 =>
    rw [hgo] at h
    cases b with
    | false =>
      simp only [Prod.mk.injEq] at h
      exact absurd h.1 (by simp)
    | true =>
      simp only [Prod.mk.injEq] at h
      have hm : m' = m2 := h.2.symm
      subst hm
      obtain ⟨qs, fl2, hq, hfl, hm2, hfresh⟩ :=
        uvmallocGo_true (PGROUNDUP oldsz / PGSIZE) perm pt0 _ [] fl m'
          (by intro i hi; simp at hi) hgo
      rw [hm2]
      simp only [List.nil_append] at *
      rw [uvmdealloc]
      by_cases hc : newsz ≤ oldsz
      · rw [if_pos hc]
        have hosz : oldsz = newsz := by omega
        subst hosz
        have hq0 : qs = [] := List.eq_nil_of_length_eq_zero (by omega)
        subst hq0
        simp only [List.nil_append] at hfl
        subst hfl
        exact ⟨rfl, List.Perm.refl _⟩
      · rw [if_neg hc]
        have hfresh2 : ∀ i, i < qs.length →
            walkLookup pt0 (PGROUNDUP oldsz / PGSIZE + i) = none := by
          intro i hi
          exact hfresh i (by omega)
        have hroll := uvmunmapGo_rollback perm qs (PGROUNDUP oldsz / PGSIZE) fl2 pt0 hfresh2
        rw [← hq, hroll]
        constructor
        · rfl
        · rw [hfl]
          exact (List.reverse_perm qs).append_right fl2

/-- Witness for C5: growing from 0 to two pages (frames 7 and 8) and
shrinking back unmaps both pages and returns both frames to the freelist. -/
theorem uvmalloc_uvmdealloc_roundtrip_witness :
    (uvmdealloc ⟨⟨[]⟩, [(1, ⟨8, 0⟩), (0, ⟨7, 0⟩)]⟩ 8192 0).2.pt =
      ((⟨⟨[7, 8]⟩, []⟩ : Mem)).pt ∧
    List.Perm (uvmdealloc ⟨⟨[]⟩, [(1, ⟨8, 0⟩), (0, ⟨7, 0⟩)]⟩ 8192 0).2.kmem.freelist
      ((⟨⟨[7, 8]⟩, []⟩ : Mem)).kmem.freelist :=
  uvmalloc_uvmdealloc_roundtrip ⟨⟨[7, 8]⟩, []⟩ ⟨⟨[]⟩, [(1, ⟨8, 0⟩), (0, ⟨7, 0⟩)]⟩
    0 8192 0 8192 (by decide) (by decide)

/- ### Claim C6: the process state machine -/

/-- Process lifecycle states of a process-table slot. -/
inductive ProcState
  | UNUSED
  | USED
  | SLEEPING
  | RUNNABLE
  | RUNNING
  | ZOMBIE
deriving DecidableEq, Repr

/-- Modelled from the spec: the operations of the process manager that
change a process's state (proc.c is not part of the provided sources). -/
inductive ProcOp
  | allocProc
  | setRunnable
  | schedule
  | yieldCpu
  | sleepOn
  | wakeupOn
  | exitProc
  | waitReap
deriving DecidableEq, Repr

/-- Modelled from the spec: the state transitions of the process manager
(proc.c is not part of the provided sources).  Allocation takes an UNUSED
slot to USED; fork/init completion makes it RUNNABLE; the scheduler runs a
RUNNABLE process; yield, sleep and wakeup move between RUNNING, SLEEPING
and RUNNABLE; `exit` takes the running process to ZOMBIE; a parent's
`wait` reaps a ZOMBIE back to UNUSED. -/
inductive procStep : ProcOp → ProcState → ProcState → Prop
  | alloc : procStep .allocProc .UNUSED .USED
  | mkRunnable : procStep .setRunnable .USED .RUNNABLE
  | sched : procStep .schedule .RUNNABLE .RUNNING
  | doYield : procStep .yieldCpu .RUNNING .RUNNABLE
  | doSleep : procStep .sleepOn .RUNNING .SLEEPING
  | doWakeup : procStep .wakeupOn .SLEEPING .RUNNABLE
  | doExit : procStep .exitProc .RUNNING .ZOMBIE
  | reap : procStep .waitReap .ZOMBIE .UNUSED

/-- Claim C6: in every execution of the process manager, a process's state
becomes ZOMBIE only from RUNNING or RUNNABLE via the exit operation, and
becomes UNUSED only from ZOMBIE via a parent's wait operation — never by
any other transition.  Stated over every possible transition of the state
machine, which covers every step of every reachable execution. -/
theorem proc_state_transitions (op : ProcOp) (s s' : ProcState)
    (h : procStep op s s') :
    (s' = .ZOMBIE → op = .exitProc ∧ (s = .RUNNING ∨ s = .RUNNABLE)) ∧
    (s' = .UNUSED → op = .waitReap ∧ s = .ZOMBIE) := by
  cases h <;> simp

/-- Witness for C6: the exit transition taken from RUNNING satisfies both
clauses of the transition characterization. -/
theorem proc_state_transitions_witness :
    ((ProcState.ZOMBIE = ProcState.ZOMBIE →
        ProcOp.exitProc = ProcOp.exitProc ∧
        (ProcState.RUNNING = ProcState.RUNNING ∨
         ProcState.RUNNING = ProcState.RUNNABLE)) ∧
     (ProcState.ZOMBIE = ProcState.UNUSED →
        ProcOp.exitProc = ProcOp.waitReap ∧
        ProcState.RUNNING = ProcState.ZOMBIE)) :=
  proc_state_transitions ProcOp.exitProc ProcState.RUNNING ProcState.ZOMBIE
    procStep.doExit

/- ### Claim C8: the sleeplock record -/

/-- The sleeplock record, embedded from kernel/sleeplock.h: its only field
is the `locked` flag, a uint8. -/
structure sleeplock where
  locked : Fin 256
deriving DecidableEq, Repr

instance : Fintype sleeplock :=
  Fintype.ofEquiv (Fin 256) ⟨fun i => ⟨i⟩, fun s => s.locked, fun _ => rfl, fun _ => rfl⟩

/-- Counterexample for C8: the claim says an owner-pid field is part of the
sleeplock record, which would embed the unbounded pid space injectively
into the record; but the record is a single uint8, of which there are only
256 values, so no such injection exists. -/
theorem sleeplock_no_pid_counterexample :
    ¬ ∃ f : Nat → sleeplock, Function.Injective f := by
  rintro ⟨f, hf⟩
  have h2 : Finite Nat := Finite.of_injective f hf
  exact not_finite Nat

/-- Claim C8 (amended): the sleeplock state consists solely of its locked
flag — two sleeplocks with the same locked flag are the same lock record;
no owner pid and no guarding spinlock are stored in it (the guard is
supplied externally, per defs.h `sleep_lock(void *, struct spinlock *)`). -/
theorem sleeplock_state_is_locked_flag (a b : sleeplock)
    (h : a.locked = b.locked) : a = b :=
  congrArg sleeplock.mk h

/-- Witness for C8 (amended): two sleeplock records with locked flag 1 are
equal. -/
theorem sleeplock_state_is_locked_flag_witness :
    (⟨(1 : Fin 256)⟩ : sleeplock) = ⟨(1 : Fin 256)⟩ :=
  sleeplock_state_is_locked_flag ⟨(1 : Fin 256)⟩ ⟨(1 : Fin 256)⟩ rfl

/- ### Claim C9: panic never returns -/

/-- Control location for a call into the fatal-halt entry point: the
caller is executing, `panic` is executing, or every hart is halted. -/
inductive KCtl
  | inCaller
  | inPanic
  | halted
deriving DecidableEq, Repr

/-- Modelled from the spec: the behavior of `panic` (printf.c is not part
of the provided sources; defs.h declares it `noreturn`): invoking it with
any message enters the panic routine. -/
def panic (_msg : List Char) : KCtl := KCtl.inPanic

/-- Modelled from the spec: one step of control flow around a `panic` call:
the panic routine halts all harts, and a halted machine stays halted;
control never transfers back to the caller. -/
def panicStep : KCtl → KCtl
  | .inCaller => .inCaller
  | .inPanic => .halted
  | .halted => .halted

theorem panicStep_halted (n : Nat) : panicStep^[n] KCtl.halted = KCtl.halted := by
  induction n with
  | zero => rfl
  | succ k ih => rw [Function.iterate_succ_apply, show panicStep KCtl.halted = KCtl.halted from rfl, ih]

/-- Claim C9: the fatal-halt entry point `panic`, once invoked, never
returns to its caller, on any input message and after any number of
execution steps. -/
theorem panic_never_returns (msg : List Char) (n : Nat) :
    panicStep^[n] (panic msg) ≠ KCtl.inCaller := by
  cases n with
  | zero =>
    rw [Function.iterate_zero_apply]
    exact fun h => absurd h (by simp [panic])
  | succ k =>
    rw [Function.iterate_succ_apply, show panicStep (panic msg) = KCtl.halted from rfl,
      panicStep_halted]
    exact fun h => absurd h (by simp)

/- ### Claim C7: copyin / copyout failure modes -/

/-- Physical memory, byte-addressed. -/
structure PhysMem where
  bytes : Nat → Nat

/-- Write a list of bytes to consecutive physical addresses. -/
def writeBytes : PhysMem → Nat → List Nat → PhysMem
  | pm, _, [] => pm
  | pm, a, b :: bs => writeBytes ⟨fun x => if x = a then b else pm.bytes x⟩ (a + 1) bs

/-- Read `n` bytes from consecutive physical addresses. -/
def readBytes (pm : PhysMem) (a n : Nat) : List Nat :=
  (List.range n).map (fun i => pm.bytes (a + i))

/-- The two distinguishable failure results of the copy routines: a
translation miss versus a zero-length request. -/
inductive CopyErr
  | transMiss
  | zeroLen
deriving DecidableEq, Repr

/-- Modelled from the spec: the segment loop of `copyout` (vm.c is not part
of the provided sources).  Translates the destination virtual address once
per physical page boundary crossed and copies byte segments one page at a
time, since physical backing is not contiguous; fails on a translation
miss. -/
def copyoutGo (pt : Pagetable) (pm : PhysMem) (dstva : Nat) (src : List Nat) :
    Except CopyErr PhysMem :=
  if h : src = [] then .ok pm
  else
    match walkLookup pt (dstva / PGSIZE) with
    | none => .error .transMiss
    | some e =>
      copyoutGo pt
        (writeBytes pm (e.ppn * PGSIZE + dstva % PGSIZE)
          (src.take (PGSIZE - dstva % PGSIZE)))
        (dstva + (PGSIZE - dstva % PGSIZE))
        (src.drop (PGSIZE - dstva % PGSIZE))
termination_by src.length
decreasing_by
  simp only [List.length_drop]
  have hm : dstva % PGSIZE < PGSIZE := Nat.mod_lt _ (by decide)
  have hp : 0 < src.length := List.length_pos.mpr h
  omega

/-- Modelled from the spec: `copyout` (vm.c is not part of the provided
sources).  Fails distinctly on a zero-length request versus a translation
miss. -/
def copyout (pt : Pagetable) (pm : PhysMem) (dstva : Nat) (src : List Nat) :
    Except CopyErr PhysMem :=
  if src = [] then .error .zeroLen
  else copyoutGo pt pm dstva src

/-- Modelled from the spec: the segment loop of `copyin` (vm.c is not part
of the provided sources).  Translates the source virtual address once per
physical page boundary crossed and reads byte segments one page at a time;
fails on a translation miss. -/
def copyinGo (pt : Pagetable) (pm : PhysMem) (srcva len : Nat) :
    Except CopyErr (List Nat) :=
  if h : len = 0 then .ok []
  else
    match walkLookup pt (srcva / PGSIZE) with
    | none => .error .transMiss
    | some e =>
      match copyinGo pt pm (srcva + min (PGSIZE - srcva % PGSIZE) len)
          (len - min (PGSIZE - srcva % PGSIZE) len) with
      | .error err => .error err
      | .ok rest =>
        .ok (readBytes pm (e.ppn * PGSIZE + srcva % PGSIZE)
          (min (PGSIZE - srcva % PGSIZE) len) ++ rest)
termination_by len
decreasing_by
  have hm : srcva % PGSIZE < PGSIZE := Nat.mod_lt _ (by decide)
  omega

/-- Modelled from the spec: `copyin` (vm.c is not part of the provided
sources).  Fails distinctly on a zero-length request versus a translation
miss. -/
def copyin (pt : Pagetable) (pm : PhysMem) (srcva len : Nat) :
    Except CopyErr (List Nat) :=
  if len = 0 then .error .zeroLen
  else copyinGo pt pm srcva len

/-- Claim C7: for every page table, address and length, `copyin` and
`copyout` fail on a translation miss and fail on a zero-length request,
and the two failures are distinguishable from each other in the result
returned to the caller. -/
theorem copy_fail_modes (pt : Pagetable) (pm : PhysMem) (va len : Nat)
    (src : List Nat) (hmiss : walkLookup pt (va / PGSIZE) = none)
    (hlen : 0 < len) (hsrc : src ≠ []) :
    copyin pt pm va 0 = .error .zeroLen ∧
    copyout pt pm va [] = .error .zeroLen ∧
    copyin pt pm va len = .error .transMiss ∧
    copyout pt pm va src = .error .transMiss ∧
    CopyErr.zeroLen ≠ CopyErr.transMiss := by
  refine ⟨rfl, rfl, ?_, ?_, by decide⟩
  · rw [copyin, if_neg (by omega : ¬ len = 0)]
    unfold copyinGo
    rw [dif_neg (by omega : ¬ len = 0), hmiss]
  · rw [copyout, if_neg hsrc]
    unfold copyoutGo
    rw [dif_neg hsrc, hmiss]

/-- Witness for C7: on the empty page table at address 0, length-1 `copyin`
and one-byte `copyout` both report a translation miss, and zero-length
requests report the distinct zero-length failure. -/
theorem copy_fail_modes_witness :
    copyin [] ⟨fun _ => 0⟩ 0 0 = .error .zeroLen ∧
    copyout [] ⟨fun _ => 0⟩ 0 [] = .error .zeroLen ∧
    copyin [] ⟨fun _ => 0⟩ 0 1 = .error .transMiss ∧
    copyout [] ⟨fun _ => 0⟩ 0 [3] = .error .transMiss ∧
    CopyErr.zeroLen ≠ CopyErr.transMiss :=
  copy_fail_modes [] ⟨fun _ => 0⟩ 0 1 [3] rfl (by decide) (by simp)

/- ### Claim C10: the syscall argument-fetch interface -/

/-- The syscall-argument registers a0..a5 of a process trapframe. -/
structure TrapFrame where
  regs : Fin 6 → Nat

/-- Interpret the low 32 bits of a register as a signed integer. -/
def toSigned32 (x : Nat) : Int :=
  if x % 4294967296 < 2147483648 then ((x % 4294967296 : Nat) : Int)
  else ((x % 4294967296 : Nat) : Int) - 4294967296

/-- Modelled from the spec: `argint` (syscall.c is not part of the provided
sources; defs.h declares it `void argint(int, int *)`).  Fetches the n-th
syscall argument as a signed integer from the trapframe register; it always
produces a value and has no failure result. -/
def argint (n : Fin 6) (tf : TrapFrame) : Int := toSigned32 (tf.regs n)

/-- Modelled from the spec: `argaddr` (syscall.c is not part of the
provided sources; defs.h declares it `void argaddr(int, uint64 *)`).
Fetches the n-th syscall argument as an address from the trapframe
register; it always produces a value and has no failure result. -/
def argaddr (n : Fin 6) (tf : TrapFrame) : Nat := tf.regs n

/-- User-space memory of a process: its size and its bytes. -/
structure UserMem where
  sz : Nat
  mem : Nat → Nat

/-- Read `n` bytes little-endian from user memory as one number. -/
def readWordLE (um : UserMem) (addr : Nat) : Nat → Nat
  | 0 => 0
  | Nat.succ k => um.mem addr + 256 * readWordLE um (addr + 1) k

/-- Modelled from the spec: `fetchaddr` (syscall.c is not part of the
provided sources; defs.h declares it `int fetchaddr(uint64, uint64 *)`).
Reads a 64-bit word from user memory, failing — with an error status —
when the word is not entirely inside the process's address space. -/
def fetchaddr (um : UserMem) (addr : Nat) : Option Nat :=
  if um.sz ≤ addr ∨ um.sz < addr + 8 then none
  else some (readWordLE um addr 8)

/-- Modelled from the spec: the copy loop behind `fetchstr` (syscall.c and
vm.c are not part of the provided sources).  Reads bytes until a NUL, the
byte budget `max`, or the end of the address space; only a NUL-terminated
read succeeds. -/
def fetchstrGo (um : UserMem) : Nat → Nat → Option (List Nat)
  | _, 0 => none
  | addr, Nat.succ k =>
    if um.sz ≤ addr then none
    else if um.mem addr = 0 then some []
    else
      match fetchstrGo um (addr + 1) k with
      | none => none
      | some s => some (um.mem addr :: s)

/-- Modelled from the spec: `fetchstr` (syscall.c is not part of the
provided sources; defs.h declares it `int fetchstr(uint64, char *, int)`).
Fetches a bounded NUL-terminated string from user memory, failing — with
an error status — on a translation miss or a missing terminator. -/
def fetchstr (um : UserMem) (addr max : Nat) : Option (List Nat) :=
  fetchstrGo um addr max

/-- Modelled from the spec: `argstr` (syscall.c is not part of the provided
sources; defs.h declares it `int argstr(int, char *, int)`).  Fetches the
n-th syscall argument as an address and fetches the string it points to
from user memory; only the user-memory fetch can fail. -/
def argstr (n : Fin 6) (tf : TrapFrame) (um : UserMem) (max : Nat) :
    Option (List Nat) :=
  fetchstr um (argaddr n tf) max

/-- Claim C10: at the syscall argument-fetch interface, `argint` and
`argaddr` have no failure result — they produce a value on every input —
whereas the user-memory fetches `argstr`, `fetchstr` and `fetchaddr`
return a status that can report failure, and inputs making each of them
fail (and succeed) exist; so only fetches that read user memory can
fail. -/
theorem syscall_arg_fetch_fallibility :
    (∀ n tf, ∃ v : Int, argint n tf = v) ∧
    (∀ n tf, ∃ a : Nat, argaddr n tf = a) ∧
    (∃ um addr, fetchaddr um addr = none) ∧
    (∃ um addr max, fetchstr um addr max = none) ∧
    (∃ n tf um max, argstr n tf um max = none) ∧
    (∃ um addr v, fetchaddr um addr = some v) ∧
    (∃ um addr max s, fetchstr um addr max = some s) := by
  refine ⟨fun n tf => ⟨argint n tf, rfl⟩, fun n tf => ⟨argaddr n tf, rfl⟩,
    ⟨⟨0, fun _ => 0⟩, 0, ?_⟩, ⟨⟨0, fun _ => 0⟩, 0, 1, ?_⟩,
    ⟨0, ⟨fun _ => 0⟩, ⟨0, fun _ => 0⟩, 1, ?_⟩,
    ⟨⟨8, fun _ => 0⟩, 0, 0, ?_⟩, ⟨⟨1, fun _ => 0⟩, 0, 1, [], ?_⟩⟩
  · rfl
  · rfl
  · rfl
  · rfl
  · rfl

end XV6
